import Mathlib

/-!
Verification of the Lookup-Free Quantization (LFQ) core of the
vector-quantize-pytorch repository (src/vector_quantization/lookup_free_quantization.py).

The Python module is shallowly embedded here:
tensors become (nested) lists, machine floats become exact rationals on the
algebraic quantization path and real numbers where transcendental functions
(softmax, logarithm, square root) occur, and the per-call randomness used for
entropy subsampling becomes an explicit parameter (the list of argsort ranks).
-/

/-! ### Binary codeword codec (LFQ.__init__ mask/codebook, LFQ.bits_to_codes,
LFQ.indices_to_codes, and the index derivation of LFQ.forward) -/

/-- Embeds the buffer registered in LFQ.__init__:
mask = 2 ** torch.arange(codebook_dim - 1, -1, -1), i.e. the codebook_dim
powers of two in most-significant-first order. -/
def lfq_mask (d : ℕ) : List ℕ :=
  (List.range d).map fun i => 2 ^ (d - 1 - i)

/-- Embeds the bit expansion of LFQ.indices_to_codes:
bits = ((indices[..., None].int() & self.mask) != 0), one 0/1 value per mask entry. -/
def decode_bits (d idx : ℕ) : List ℕ :=
  (lfq_mask d).map fun m => if idx &&& m ≠ 0 then 1 else 0

/-- Embeds LFQ.bits_to_codes: bits * codebook_scale * 2 - codebook_scale. -/
def bits_to_codes (scale : ℚ) (b : ℚ) : ℚ :=
  b * scale * 2 - scale

/-- Real-valued version of LFQ.bits_to_codes, used where the spherical variant
(which divides by a Euclidean norm) forces real arithmetic. -/
def bits_to_codes_r (scale : ℝ) (b : ℝ) : ℝ :=
  b * scale * 2 - scale

/-- Embeds the core of LFQ.indices_to_codes before normalization and projection:
codes = self.bits_to_codes(bits). -/
def indices_to_codes_core (scale : ℚ) (d idx : ℕ) : List ℚ :=
  (decode_bits d idx).map fun b : ℕ => bits_to_codes scale (b : ℚ)

/-- Real-valued decode, for the spherical (BSQ) variant. -/
def indices_to_codes_real (scale : ℝ) (d idx : ℕ) : List ℝ :=
  (decode_bits d idx).map fun b : ℕ => bits_to_codes_r scale (b : ℝ)

/-- Embeds l2norm from utils/losses.py (F.normalize with p=2 over the last
dimension): divide each component by the Euclidean norm of the vector. -/
noncomputable def l2norm_list (t : List ℝ) : List ℝ :=
  t.map fun v => v / Real.sqrt ((t.map fun w => w * w).sum)

/-- Embeds LFQ.maybe_l2norm: (lambda t: l2norm(t) * self.codebook_scale) when
spherical else identity. -/
noncomputable def maybe_l2norm_r (spherical : Bool) (scale : ℝ) (t : List ℝ) : List ℝ :=
  if spherical then (l2norm_list t).map fun v => v * scale else t

/-- Embeds the index derivation of LFQ.forward:
indices = reduce((quantized > 0).int() * self.mask.int(), "b n c d -> b n c", "sum"),
for one codebook slot, over real-valued codewords. -/
noncomputable def lfq_encode_real (d : ℕ) (codes : List ℝ) : ℕ :=
  ((codes.zip (lfq_mask d)).map fun p => (if 0 < p.1 then 1 else 0) * p.2).sum

/-- Rational (exact) version of the index derivation of LFQ.forward. -/
def lfq_encode (d : ℕ) (codes : List ℚ) : ℕ :=
  ((codes.zip (lfq_mask d)).map fun p => (if 0 < p.1 then 1 else 0) * p.2).sum

/-- Embeds the codebook buffer enumerated in LFQ.__init__:
all_codes = torch.arange(codebook_size);
bits = ((all_codes[..., None].int() & self.mask) != 0).float();
codebook = self.bits_to_codes(bits). -/
def lfq_codebook (scale : ℚ) (d size : ℕ) : List (List ℚ) :=
  (List.range size).map fun code =>
    ((lfq_mask d).map fun m => if code &&& m ≠ 0 then (1 : ℕ) else 0).map
      fun b : ℕ => bits_to_codes scale (b : ℚ)

/-! ### Entropy auxiliary loss: soft-assignment distribution (LFQ.forward lines 296-304) -/

/-- Per-row dot product of the einsum contraction
einsum("... i d, j d -> ... i j", original_input, codebook). -/
def dotQ (x c : List ℚ) : ℚ :=
  ((x.zip c).map fun p => p.1 * p.2).sum

/-- Embeds LFQ.forward:
distance = -2 * einsum("... i d, j d -> ... i j", original_input, codebook),
for one token against every enumerated codeword. -/
def lfq_distance (x : List ℚ) (cb : List (List ℚ)) : List ℚ :=
  cb.map fun c => -2 * dotQ x c

/-- Softmax over a list (torch softmax along the last axis). -/
noncomputable def softmax (xs : List ℝ) : List ℝ :=
  xs.map fun v => Real.exp v / (xs.map Real.exp).sum

/-- Embeds LFQ.forward: prob = (-distance * inv_temperature).softmax(dim=-1),
for one token. -/
noncomputable def lfq_prob (t : ℝ) (x : List ℚ) (cb : List (List ℚ)) : List ℝ :=
  softmax ((lfq_distance x cb).map fun dv : ℚ => -(dv : ℝ) * t)

/-- Follows the words of the spec, for comparison with lfq_prob: the spec says
score = -2 * dot(x, codeword) and prob = softmax(score * inverse_temperature). -/
noncomputable def spec_prob_claimed (t : ℝ) (x : List ℚ) (cb : List (List ℚ)) : List ℝ :=
  softmax ((lfq_distance x cb).map fun sv : ℚ => (sv : ℝ) * t)

/-! ### The forward pass (LFQ.forward) over the flattened (batch * position)
token axis, with the module's default configuration of the remaining flags:
no projections (has_projections = False when dim equals codebook_dim *
num_codebooks), identity straight-through activation, no soft clamp,
non-spherical. The per-call randomness used for entropy subsampling
(torch.randn(num_tokens).argsort()) is passed in as the explicit list of
ranks; the training/eval mode flag is an explicit argument. -/

/-- Immutable construction-time configuration of LFQ (the fields the embedded
forward pass reads). -/
structure LFQCfg where
  codebook_dim : ℕ
  num_codebooks : ℕ
  codebook_scale : ℚ
  entropy_loss_weight : ℝ
  commitment_loss_weight : ℝ
  diversity_gamma : ℝ
  frac_per_sample_entropy : ℚ
  experimental_softplus_entropy_loss : Bool
  entropy_loss_offset : ℝ
  keep_num_codebooks_dim : Bool

/-- Embeds the elementwise hard decision of LFQ.forward:
quantized = torch.where(x > 0, codebook_value, -codebook_value)
with codebook_value = codebook_scale. -/
def lfq_threshold (scale : ℚ) (v : ℚ) : ℚ :=
  if 0 < v then scale else -scale

/-- Embeds rearrange(x, "b n (c d) -> b n c d") for one token: slice j is the
j-th codebook_dim-wide block of the feature vector. -/
def token_slices (c d : ℕ) (x : List ℚ) : List (List ℚ) :=
  (List.range c).map fun j => (x.drop (j * d)).take d

/-- The hard decision applied to one codebook slice. -/
def quantize_slice (scale : ℚ) (s : List ℚ) : List ℚ :=
  s.map (lfq_threshold scale)

/-- Value-level straight-through construction of LFQ.forward in training mode:
x = self.activation(x); x = x + (quantized - x).detach(), with the default
identity activation; detach is the identity on forward values. -/
def straight_through_value (a q : ℚ) : ℚ :=
  a + (q - a)

/-- The forward value of one token: hard-quantize each codebook slice, apply
the straight-through construction in training mode, and merge the codebook
dimension back (rearrange "b n c d -> b n (c d)"). -/
def token_out (cfg : LFQCfg) (training : Bool) (tok : List ℚ) : List ℚ :=
  let slices := token_slices cfg.num_codebooks cfg.codebook_dim tok
  let quantized := slices.map (quantize_slice cfg.codebook_scale)
  (if training = true
    then List.zipWith (List.zipWith straight_through_value) slices quantized
    else quantized).flatten

/-- Embeds indices = reduce((quantized > 0).int() * self.mask.int(),
"b n c d -> b n c", "sum") for one token: one integer per codebook slot. -/
def token_indices (cfg : LFQCfg) (tok : List ℚ) : List ℕ :=
  (token_slices cfg.num_codebooks cfg.codebook_dim tok).map fun s =>
    lfq_encode cfg.codebook_dim (quantize_slice cfg.codebook_scale s)

/-- Embeds boolean-mask token selection prob[mask] (keeping order). -/
def maskSelect {α : Type} (m : List Bool) (xs : List α) : List α :=
  ((xs.zip m).filter fun p => p.2).map Prod.fst

/-- Embeds the mask branch of LFQ.forward: prob = prob[mask] when a mask is
given, else rearrange(prob, "b n ... -> (b n) ...") (identity on the already
flattened token axis). -/
def maskFilter {α : Type} (mask : Option (List Bool)) (xs : List α) : List α :=
  match mask with
  | none => xs
  | some m => maskSelect m xs

/-- Embeds num_sampled_tokens = int(num_tokens * self.frac_per_sample_entropy):
Python int() truncates toward zero, which is the floor for nonnegative
values. -/
def num_sampled_tokens (frac : ℚ) (n : ℕ) : ℕ :=
  (⌊frac * (n : ℚ)⌋).toNat

/-- Embeds rand_mask = torch.randn(num_tokens).argsort(dim=-1) < num_sampled_tokens
followed by prob[rand_mask]: ranks is the argsort of the fresh per-call
random draw, passed as an explicit randomness parameter. -/
def rand_mask_select {α : Type} (ranks : List ℕ) (k : ℕ) (xs : List α) : List α :=
  ((xs.zip ranks).filter fun p => decide (p.2 < k)).map Prod.fst

/-- Embeds the frac_per_sample_entropy < 1.0 subsampling branch of LFQ.forward. -/
def per_sample_probs_of {α : Type} (frac : ℚ) (ranks : List ℕ) (probs : List α) : List α :=
  if frac < 1 then rand_mask_select ranks (num_sampled_tokens frac probs.length) probs
  else probs

/-- torch .mean() over a flat list of scalars. -/
noncomputable def listMean (xs : List ℝ) : ℝ :=
  xs.sum / xs.length

/-- Modelled from the spec: the entropy helper imported from
vector_quantization.utils.general, whose source file is not under src/.
Per the spec it is the standard Shannon entropy over the last axis:
-sum_c prob_c * log(prob_c). -/
noncomputable def shannon_entropy (p : List ℝ) : ℝ :=
  -((p.map fun v => v * Real.log v).sum)

/-- Modelled from the spec: maybe_distributed_mean from
vector_quantization.utils.distributed, whose source file is not under src/.
Per the spec it is an injectable cross-worker mean-reduction hook whose
default (single-worker) implementation is a no-op identity. -/
def maybe_distributed_mean (t : List (List ℝ)) : List (List ℝ) :=
  t

/-- Elementwise sum of two (num_codebooks x codebook_size) matrices. -/
def matAdd (a b : List (List ℝ)) : List (List ℝ) :=
  List.zipWith (List.zipWith fun x y => x + y) a b

/-- Elementwise sum of a list of matrices. -/
def matSum : List (List (List ℝ)) → List (List ℝ)
  | [] => []
  | [m] => m
  | m :: rest => matAdd m (matSum rest)

/-- Embeds reduce(per_sample_probs, "... c d -> c d", "mean"): the elementwise
mean over the token axis. -/
noncomputable def matMean (ms : List (List (List ℝ))) : List (List ℝ) :=
  (matSum ms).map (List.map fun v => v / (ms.length : ℝ))

/-- The per-token soft-assignment distributions of LFQ.forward:
distance against the enumerated codebook and temperature softmax, one
distribution per codebook slot (original_input is the pre-threshold value). -/
noncomputable def lfq_probs_all (cfg : LFQCfg) (t : ℝ) (x : List (List ℚ)) :
    List (List (List ℝ)) :=
  x.map fun tok =>
    (token_slices cfg.num_codebooks cfg.codebook_dim tok).map fun s =>
      lfq_prob t s (lfq_codebook cfg.codebook_scale cfg.codebook_dim (2 ^ cfg.codebook_dim))

/-- Embeds per_sample_entropy = entropy(per_sample_probs).mean(). -/
noncomputable def per_sample_entropy_term (frac : ℚ) (ranks : List ℕ)
    (prob : List (List (List ℝ))) : ℝ :=
  listMean (((per_sample_probs_of frac ranks prob).map fun mm =>
    mm.map shannon_entropy).flatten)

/-- Embeds avg_prob = reduce(per_sample_probs, "... c d -> c d", "mean");
avg_prob = maybe_distributed_mean(avg_prob);
codebook_entropy = entropy(avg_prob).mean(). -/
noncomputable def codebook_entropy_term (frac : ℚ) (ranks : List ℕ)
    (prob : List (List (List ℝ))) : ℝ :=
  listMean ((maybe_distributed_mean
    (matMean (per_sample_probs_of frac ranks prob))).map shannon_entropy)

/-- Embeds commit_loss = F.mse_loss(original_input, quantized.detach(),
reduction="none") for one token: the squared differences over the
(num_codebooks x codebook_dim) layout, flattened. -/
noncomputable def commit_mse_tokens (cfg : LFQCfg) (x : List (List ℚ)) :
    List (List ℝ) :=
  x.map fun tok =>
    (List.zipWith (List.zipWith fun a b => (((a : ℚ) - b : ℚ) : ℝ) ^ 2)
      (token_slices cfg.num_codebooks cfg.codebook_dim tok)
      ((token_slices cfg.num_codebooks cfg.codebook_dim tok).map
        (quantize_slice cfg.codebook_scale))).flatten

/-- The values LFQ.forward returns: Return(quantized, indices, aux_loss) and
LossBreakdown(per_sample_entropy, codebook_entropy, commit_loss); the
entropy_aux_loss local (per_sample - gamma * codebook, optionally through the
shifted softplus) is also exposed. -/
structure LFQResult where
  quantized : List (List ℚ)
  indices : List (List ℕ)
  aux_loss : ℝ
  entropy_aux_loss : ℝ
  per_sample_entropy : ℝ
  codebook_entropy : ℝ
  commit_loss : ℝ

/-- Embeds LFQ.forward over the flattened token axis. -/
noncomputable def lfq_forward (cfg : LFQCfg) (training : Bool) (t : ℝ)
    (x : List (List ℚ)) (mask : Option (List Bool)) (ranks : List ℕ) : LFQResult :=
  let prob := maskFilter mask (lfq_probs_all cfg t x)
  let pse := if training = true
    then per_sample_entropy_term cfg.frac_per_sample_entropy ranks prob else 0
  let ce := if training = true
    then codebook_entropy_term cfg.frac_per_sample_entropy ranks prob else 0
  let ea0 := if training = true then pse - cfg.diversity_gamma * ce else 0
  let ea := if training = true ∧ cfg.experimental_softplus_entropy_loss = true
    then Real.log (1 + Real.exp (ea0 + cfg.entropy_loss_offset)) else ea0
  let commit := if training = true ∧ 0 < cfg.commitment_loss_weight
    then listMean ((maskFilter mask (commit_mse_tokens cfg x)).flatten) else 0
  { quantized := x.map (token_out cfg training)
    indices := x.map (token_indices cfg)
    aux_loss := ea * cfg.entropy_loss_weight + commit * cfg.commitment_loss_weight
    entropy_aux_loss := ea
    per_sample_entropy := pse
    codebook_entropy := ce
    commit_loss := commit }

/-! ### Shape adaptation (LFQ.forward lines 240-251 and 372-383) -/

/-- Shape predicate: a regular 2-dimensional nested list. -/
def dims2 {α : Type} (x : List (List α)) (a b : ℕ) : Prop :=
  x.length = a ∧ ∀ r ∈ x, r.length = b

/-- Shape predicate: a regular 3-dimensional nested list. -/
def dims3 {α : Type} (x : List (List (List α))) (a b c : ℕ) : Prop :=
  x.length = a ∧ ∀ r ∈ x, dims2 r b c

/-- Shape predicate: a regular 4-dimensional nested list. -/
def dims4 {α : Type} (x : List (List (List (List α)))) (a b c d : ℕ) : Prop :=
  x.length = a ∧ ∀ r ∈ x, dims3 r b c d

/-- The quantized output of LFQ.forward for sequence input (B, N, D). -/
def lfq_seq_quantized (cfg : LFQCfg) (training : Bool)
    (x : List (List (List ℚ))) : List (List (List ℚ)) :=
  x.map fun batch => batch.map (token_out cfg training)

/-- The indices output of LFQ.forward for sequence input, with the
num_codebooks axis kept. -/
def lfq_seq_indices (cfg : LFQCfg) (x : List (List (List ℚ))) :
    List (List (List ℕ)) :=
  x.map fun batch => batch.map (token_indices cfg)

/-- Embeds rearrange(indices, "... 1 -> ...") when keep_num_codebooks_dim is
false: squeeze the singleton codebook axis. -/
def drop_cb_dim_seq (idx : List (List (List ℕ))) : List (List ℕ) :=
  idx.map (List.map fun l => l.getD 0 0)

/-- Embeds, for one channel-first image batch element of shape (D, H, W),
rearrange(x, "b d ... -> b ... d") followed by pack([x], "b * d"): token
h*W + w holds the D-dimensional feature vector at spatial position (h, w). -/
def image_tokens (Dch H W : ℕ) (xb : List (List (List ℚ))) : List (List ℚ) :=
  (List.range (H * W)).map fun n =>
    (List.range Dch).map fun f => ((xb.getD f []).getD (n / W) []).getD (n % W) 0

/-- Embeds unpack_one(x, ps, "b * d") followed by
rearrange(x, "b ... d -> b d ...") for one batch element: back to (D, H, W). -/
def image_unpack_quant (Dch H W : ℕ) (toks : List (List ℚ)) :
    List (List (List ℚ)) :=
  (List.range Dch).map fun f => (List.range H).map fun h =>
    (List.range W).map fun w => (toks.getD (h * W + w) []).getD f 0

/-- Embeds unpack_one(indices, ps, "b * c") for one batch element: the flat
token axis is restored to the (H, W) spatial layout. -/
def image_unpack_indices (H W : ℕ) (idxs : List (List ℕ)) :
    List (List (List ℕ)) :=
  (List.range H).map fun h => (List.range W).map fun w => idxs.getD (h * W + w) []

/-- The quantized output of LFQ.forward for channel-first image input
(B, D, H, W). -/
def lfq_image_quantized (cfg : LFQCfg) (training : Bool) (Dch H W : ℕ)
    (x : List (List (List (List ℚ)))) : List (List (List (List ℚ))) :=
  x.map fun xb =>
    image_unpack_quant Dch H W ((image_tokens Dch H W xb).map (token_out cfg training))

/-- The indices output of LFQ.forward for channel-first image input, with the
num_codebooks axis kept. -/
def lfq_image_indices (cfg : LFQCfg) (Dch H W : ℕ)
    (x : List (List (List (List ℚ)))) : List (List (List (List ℕ))) :=
  x.map fun xb =>
    image_unpack_indices H W ((image_tokens Dch H W xb).map (token_indices cfg))

/-- Squeeze the singleton codebook axis of image indices. -/
def drop_cb_dim_img (idx : List (List (List (List ℕ)))) :
    List (List (List ℕ)) :=
  idx.map (List.map (List.map fun l => l.getD 0 0))

theorem lfq_mask_succ (d : ℕ) : lfq_mask (d + 1) = 2 ^ d :: lfq_mask d := by
  unfold lfq_mask
  rw [List.range_succ_eq_map, List.map_cons, List.map_map]
  refine congrArg₂ List.cons (by simp) (List.map_congr_left ?_)
  intro i _
  simp only [Function.comp_apply]
  congr 1
  omega

theorem lfq_mask_mem {d m : ℕ} (hm : m ∈ lfq_mask d) : ∃ k, k < d ∧ m = 2 ^ k := by
  unfold lfq_mask at hm
  simp only [List.mem_map, List.mem_range] at hm
  obtain ⟨i, hi, rfl⟩ := hm
  exact ⟨d - 1 - i, by omega, rfl⟩

theorem lfq_mask_length (d : ℕ) : (lfq_mask d).length = d := by
  simp [lfq_mask]

/-- Recomposition: summing exactly the set bits' mask values recovers the index. -/
theorem lfq_decode_sum (d : ℕ) :
    ∀ i : ℕ, i < 2 ^ d →
      (((lfq_mask d).map fun m => if i &&& m ≠ 0 then m else 0)).sum = i := by
  induction d with
  | zero =>
    intro i hi
    have : i = 0 := by omega
    subst this
    simp [lfq_mask]
  | succ d ih =>
    intro i hi
    rw [lfq_mask_succ, List.map_cons, List.sum_cons]
    have htail : ((lfq_mask d).map fun m => if i &&& m ≠ 0 then m else 0)
        = (lfq_mask d).map fun m => if (i % 2 ^ d) &&& m ≠ 0 then m else 0 := by
      refine List.map_congr_left ?_
      intro m hm
      obtain ⟨k, hk, rfl⟩ := lfq_mask_mem hm
      have hb : (i % 2 ^ d).testBit k = i.testBit k := by
        rw [Nat.testBit_mod_two_pow]
        simp [hk]
      rw [Nat.and_two_pow, Nat.and_two_pow, hb]
    have hmodlt : i % 2 ^ d < 2 ^ d := Nat.mod_lt _ (by positivity)
    rw [htail, ih (i % 2 ^ d) hmodlt]
    have hdm := Nat.div_add_mod i (2 ^ d)
    have hdivlt : i / 2 ^ d < 2 := by
      have h2 : (2 : ℕ) ^ (d + 1) = 2 ^ d * 2 := by ring
      exact Nat.div_lt_of_lt_mul (by omega)
    have hand := Nat.and_two_pow i d
    have htb : i.testBit d = decide (i / 2 ^ d % 2 = 1) := Nat.testBit_to_div_mod
    by_cases hc : i.testBit d = true
    · have h1 : i / 2 ^ d % 2 = 1 := of_decide_eq_true (htb.symm.trans hc)
      rw [Nat.mod_eq_of_lt hdivlt] at h1
      rw [h1, mul_one] at hdm
      have hAnd : i &&& 2 ^ d = 2 ^ d := by
        rw [hand, hc]
        simp
      rw [if_pos (by rw [hAnd]; exact Nat.pos_iff_ne_zero.mp (Nat.pow_pos (by norm_num)))]
      exact hdm
    · have hcf : i.testBit d = false := by
        revert hc
        cases i.testBit d <;> simp
      have h1 : i / 2 ^ d % 2 ≠ 1 := by
        intro hcontra
        have : i.testBit d = true := by rw [htb]; exact decide_eq_true hcontra
        rw [this] at hcf
        simp at hcf
      rw [Nat.mod_eq_of_lt hdivlt] at h1
      have h0d : i / 2 ^ d = 0 := by
        interval_cases h : i / 2 ^ d
        · rfl
        · exact absurd rfl h1
      rw [h0d, mul_zero, zero_add] at hdm
      have hAnd : i &&& 2 ^ d = 0 := by
        rw [hand, hcf]
        simp
      rw [if_neg (by simp [hAnd]), zero_add]
      exact hdm

theorem encode_zip_map_self (g : ℕ → ℝ) (l : List ℕ) :
    (((l.map g).zip l).map fun p => (if 0 < p.1 then 1 else 0) * p.2)
      = l.map fun m => (if 0 < g m then 1 else 0) * m := by
  induction l with
  | nil => rfl
  | cons a l ih =>
    simp only [List.map_cons, List.zip_cons_cons]
    rw [ih]

theorem sum_map_const_real {α : Type} (l : List α) (c : ℝ) :
    (l.map fun _ => c).sum = l.length * c := by
  induction l with
  | nil => simp
  | cons a l ih =>
    simp [ih]
    ring

/-- The value a single decoded bit of index i takes at mask entry m. -/
def decoded_fn (scale : ℝ) (i : ℕ) : ℕ → ℝ :=
  fun m => bits_to_codes_r scale (((if i &&& m ≠ 0 then (1 : ℕ) else 0) : ℕ) : ℝ)

theorem indices_to_codes_real_eq (scale : ℝ) (d i : ℕ) :
    indices_to_codes_real scale d i = (lfq_mask d).map (decoded_fn scale i) := by
  unfold indices_to_codes_real decode_bits decoded_fn
  rw [List.map_map]
  rfl

/-- Sign of a decoded bit: positive exactly when the bit was set (scale > 0). -/
theorem decoded_fn_pos {scale : ℝ} (hs : 0 < scale) (i m : ℕ) :
    (0 < decoded_fn scale i m) ↔ i &&& m ≠ 0 := by
  unfold decoded_fn bits_to_codes_r
  by_cases h : i &&& m ≠ 0
  · rw [if_pos h]
    push_cast
    constructor
    · intro _; exact h
    · intro _; nlinarith
  · rw [if_neg h]
    push_cast
    constructor
    · intro hcontr; nlinarith
    · intro hcontr; exact absurd hcontr h

theorem decoded_fn_sq (scale : ℝ) (i m : ℕ) :
    decoded_fn scale i m * decoded_fn scale i m = scale * scale := by
  unfold decoded_fn bits_to_codes_r
  by_cases h : i &&& m ≠ 0
  · rw [if_pos h]; push_cast; ring
  · rw [if_neg h]; push_cast; ring

/-- Round trip for a single index through the real decode (optionally spherical)
followed by the sign-threshold encode of LFQ.forward. -/
theorem lfq_encode_decode_single (sph : Bool) (scale : ℝ) (hs : 0 < scale)
    (d : ℕ) (i : ℕ) (hi : i < 2 ^ d) :
    lfq_encode_real d (maybe_l2norm_r sph scale (indices_to_codes_real scale d i)) = i := by
  have key : ∀ g2 : ℕ → ℝ, (∀ m ∈ lfq_mask d, (0 < g2 m ↔ i &&& m ≠ 0)) →
      lfq_encode_real d ((lfq_mask d).map g2) = i := by
    intro g2 hsign
    unfold lfq_encode_real
    rw [encode_zip_map_self]
    have : ((lfq_mask d).map fun m => (if 0 < g2 m then 1 else 0) * m)
        = (lfq_mask d).map fun m => if i &&& m ≠ 0 then m else 0 := by
      refine List.map_congr_left ?_
      intro m hm
      by_cases hpos : 0 < g2 m
      · rw [if_pos hpos, if_pos ((hsign m hm).mp hpos), one_mul]
      · rw [if_neg hpos, if_neg (fun hb => hpos ((hsign m hm).mpr hb)), zero_mul]
    rw [this]
    exact lfq_decode_sum d i hi
  cases sph with
  | false =>
    rw [maybe_l2norm_r, if_neg (by simp), indices_to_codes_real_eq]
    exact key _ fun m _ => decoded_fn_pos hs i m
  | true =>
    rcases Nat.eq_zero_or_pos d with hd | hd
    · subst hd
      have : i = 0 := by omega
      subst this
      simp [maybe_l2norm_r, l2norm_list, indices_to_codes_real, decode_bits,
        lfq_mask, lfq_encode_real]
    · have hmain : maybe_l2norm_r true scale (indices_to_codes_real scale d i)
          = (lfq_mask d).map fun m =>
              decoded_fn scale i m /
                Real.sqrt ((((lfq_mask d).map (decoded_fn scale i)).map
                  fun w => w * w).sum) * scale := by
        rw [maybe_l2norm_r, if_pos (by simp), indices_to_codes_real_eq]
        unfold l2norm_list
        rw [List.map_map, List.map_map]
        exact List.map_congr_left fun m _ => rfl
      have hSval : ((((lfq_mask d).map (decoded_fn scale i)).map fun w => w * w).sum)
          = (d : ℝ) * (scale * scale) := by
        rw [List.map_map]
        have h1 : (lfq_mask d).map ((fun w => w * w) ∘ decoded_fn scale i)
            = (lfq_mask d).map fun _ => scale * scale :=
          List.map_congr_left fun m _ => decoded_fn_sq scale i m
        rw [h1, sum_map_const_real, lfq_mask_length]
      have hNpos : 0 < Real.sqrt ((((lfq_mask d).map (decoded_fn scale i)).map
          fun w => w * w).sum) := by
        apply Real.sqrt_pos.mpr
        rw [hSval]
        have hdr : (0 : ℝ) < (d : ℝ) := by exact_mod_cast hd
        exact mul_pos hdr (mul_pos hs hs)
      rw [hmain]
      refine key _ ?_
      intro m hm
      rw [← decoded_fn_pos hs i m]
      constructor
      · intro hpos
        by_contra hng
        push_neg at hng
        have h1 : decoded_fn scale i m /
            Real.sqrt ((((lfq_mask d).map (decoded_fn scale i)).map
              fun w => w * w).sum) ≤ 0 :=
          div_nonpos_of_nonpos_of_nonneg hng (le_of_lt hNpos)
        nlinarith
      · intro hpos
        exact mul_pos (div_pos hpos hNpos) hs

/-- C1: For every integer index i in [0, codebook_size), decoding i via the
most-significant-first bit mask and the affine bits-to-codes map (optionally
followed by the spherical l2-normalization) and then encoding by thresholding
at zero and summing bit * mask_value recovers i — for every list of
per-codebook indices (covering every num_codebooks) and in both the
fixed-scale and spherical variants. -/
theorem claim_C1_roundtrip (sph : Bool) (scale : ℝ) (hs : 0 < scale) (d : ℕ)
    (idxs : List ℕ) (h : ∀ i ∈ idxs, i < 2 ^ d) :
    idxs.map (fun i =>
        lfq_encode_real d (maybe_l2norm_r sph scale (indices_to_codes_real scale d i)))
      = idxs := by
  have : ∀ i ∈ idxs,
      lfq_encode_real d (maybe_l2norm_r sph scale (indices_to_codes_real scale d i)) = i :=
    fun i hi => lfq_encode_decode_single sph scale hs d i (h i hi)
  calc idxs.map (fun i =>
        lfq_encode_real d (maybe_l2norm_r sph scale (indices_to_codes_real scale d i)))
      = idxs.map id := List.map_congr_left this
    _ = idxs := List.map_id idxs

theorem claim_C1_roundtrip_witness :
    (0 : ℝ) < 1 ∧ (∀ i ∈ [0, 1, 2, 3], i < 2 ^ 2) ∧
      ([0, 1, 2, 3].map (fun i =>
          lfq_encode_real 2 (maybe_l2norm_r true 1 (indices_to_codes_real 1 2 i)))
        = [0, 1, 2, 3]) :=
  ⟨by norm_num, by decide,
    claim_C1_roundtrip true 1 (by norm_num) 2 [0, 1, 2, 3] (by decide)⟩

/-- C10: row i of the codebook buffer enumerated at construction equals the
codeword indices_to_codes produces for index i (before normalization and
projection). -/
theorem claim_C10_codebook_row (scale : ℚ) (d size i : ℕ) (hi : i < size) :
    (lfq_codebook scale d size).getD i [] = indices_to_codes_core scale d i := by
  unfold lfq_codebook indices_to_codes_core decode_bits
  rw [List.getD_eq_getElem _ _ (by simpa using hi), List.getElem_map,
    List.getElem_range]

theorem claim_C10_codebook_row_witness :
    (2 < 4) ∧ (lfq_codebook 1 2 4).getD 2 [] = indices_to_codes_core 1 2 2 :=
  ⟨by norm_num, claim_C10_codebook_row 1 2 4 2 (by norm_num)⟩

/-! ### Construction-time validation (LFQ.__init__ asserts) -/

/-- Power-of-two test: log2(codebook_size).is_integer() holds exactly when the
size is a power of two (and fails for size 0, where log2 is undefined). -/
def isPow2 (n : ℕ) : Bool :=
  decide (∃ k, k ≤ n ∧ n = 2 ^ k)

/-- Embeds the two assert validations of LFQ.__init__: either dim or
codebook_size must be given, and a given codebook_size must be a power of two. -/
def lfq_init_ok (dim codebook_size : Option ℕ) : Bool :=
  (dim.isSome || codebook_size.isSome) &&
    (match codebook_size with
     | none => true
     | some n => isPow2 n)

/-- Embeds the size named by the failure message of LFQ.__init__:
suggested 2 ** ceil(log2(codebook_size)). -/
def suggested_pow2 (n : ℕ) : ℕ :=
  2 ^ (Nat.clog 2 n)

theorem suggested_pow2_five : suggested_pow2 5 = 8 := by
  have hle : Nat.clog 2 5 ≤ 3 :=
    (Nat.le_pow_iff_clog_le (by norm_num)).mp (by norm_num)
  have hgt : 2 < Nat.clog 2 5 :=
    (Nat.pow_lt_iff_lt_clog (by norm_num)).mp (by norm_num)
  have : Nat.clog 2 5 = 3 := by omega
  rw [suggested_pow2, this]
  norm_num

/-- C5 counterexample: for codebook_size 5, construction fails as claimed, but
the message names 8 = 2 ** ceil(log2(5)), while the nearest valid
power-of-two size is 4 (|5 - 4| = 1 < 3 = |8 - 5|), so the message does not
name the nearest valid size. -/
theorem claim_C5_counterexample :
    lfq_init_ok none (some 5) = false ∧ suggested_pow2 5 = 8 ∧
      isPow2 4 = true ∧ 5 - 4 < 8 - 5 :=
  ⟨by decide, suggested_pow2_five, by decide, by norm_num⟩

/-- C5 (amended): construction fails when codebook_size is given and is not a
power of two, with a message naming the smallest power of two that is at least
codebook_size (not necessarily the nearest); construction also fails when
neither dim nor codebook_size is given. -/
theorem claim_C5_amended (dim : Option ℕ) (n : ℕ) (hn : isPow2 n = false)
    (_hpos : 1 ≤ n) :
    lfq_init_ok dim (some n) = false ∧
      isPow2 (suggested_pow2 n) = true ∧
      n ≤ suggested_pow2 n ∧
      (∀ m, isPow2 m = true → n ≤ m → suggested_pow2 n ≤ m) ∧
      lfq_init_ok none none = false := by
  refine ⟨by simp [lfq_init_ok, hn], ?_, ?_, ?_, by decide⟩
  · unfold isPow2 suggested_pow2
    refine decide_eq_true ⟨Nat.clog 2 n, ?_, rfl⟩
    exact Nat.le_of_lt (Nat.lt_two_pow _)
  · exact Nat.le_pow_clog (by norm_num) n
  · intro m hm hnm
    unfold isPow2 at hm
    obtain ⟨k, _, rfl⟩ := of_decide_eq_true hm
    unfold suggested_pow2
    exact Nat.pow_le_pow_right (by norm_num)
      ((Nat.le_pow_iff_clog_le (by norm_num)).mp hnm)

theorem claim_C5_amended_witness :
    isPow2 5 = false ∧ 1 ≤ 5 ∧
      (lfq_init_ok (some 7) (some 5) = false ∧
        isPow2 (suggested_pow2 5) = true ∧
        5 ≤ suggested_pow2 5 ∧
        (∀ m, isPow2 m = true → 5 ≤ m → suggested_pow2 5 ≤ m) ∧
        lfq_init_ok none none = false) :=
  ⟨by decide, by norm_num, claim_C5_amended (some 7) 5 (by decide) (by norm_num)⟩

theorem lfq_prob_eval :
    lfq_prob 1 [1] [[-1], [1]]
      = [Real.exp (-2) / (Real.exp (-2) + Real.exp 2),
         Real.exp 2 / (Real.exp (-2) + Real.exp 2)] := by
  unfold lfq_prob lfq_distance dotQ softmax
  norm_num

theorem spec_prob_claimed_eval :
    spec_prob_claimed 1 [1] [[-1], [1]]
      = [Real.exp 2 / (Real.exp 2 + Real.exp (-2)),
         Real.exp (-2) / (Real.exp 2 + Real.exp (-2))] := by
  unfold spec_prob_claimed lfq_distance dotQ softmax
  norm_num

/-- C2 counterexample: at input vector (1), codebook ((-1), (1)) and
inverse_temperature 1, the code's distribution softmax(-distance * t) differs
from the claim's softmax(score * t) with score = -2 * dot: the code weights
the nearer codeword higher, the claim's formula the farther one. -/
theorem claim_C2_counterexample :
    lfq_prob 1 [1] [[-1], [1]] ≠ spec_prob_claimed 1 [1] [[-1], [1]] := by
  intro h
  rw [lfq_prob_eval, spec_prob_claimed_eval] at h
  have hhead : Real.exp (-2) / (Real.exp (-2) + Real.exp 2)
      = Real.exp 2 / (Real.exp 2 + Real.exp (-2)) := by
    have := congrArg List.head? h
    simpa using this
  have hS : (0 : ℝ) < Real.exp (-2) + Real.exp 2 := by positivity
  rw [show Real.exp 2 + Real.exp (-2) = Real.exp (-2) + Real.exp 2 by ring] at hhead
  have : (-2 : ℝ) = 2 := by
    field_simp at hhead
    exact hhead
  norm_num at this

/-- C2 (amended): in training mode the soft-assignment distribution is, for
every token, the softmax over the codeword axis of (-score) *
inverse_temperature where score = -2 * dot(x, codeword) — equivalently
softmax(2 * dot(x, codeword) * inverse_temperature); the code applies the
softmax to the negated distance, not to the distance itself. -/
theorem claim_C2_amended (t : ℝ) (x : List ℚ) (cb : List (List ℚ)) :
    lfq_prob t x cb = softmax (cb.map fun c => 2 * (dotQ x c : ℝ) * t) := by
  unfold lfq_prob lfq_distance
  rw [List.map_map]
  congr 1
  refine List.map_congr_left ?_
  intro c _
  simp only [Function.comp_apply]
  push_cast
  ring

/-! ### Quantization and straight-through (claims C7, C4, C9) -/

theorem token_slices_flatten_take (c d : ℕ) (tok : List ℚ) :
    (token_slices c d tok).flatten = tok.take (c * d) := by
  induction c with
  | zero => simp [token_slices]
  | succ c ih =>
    unfold token_slices at ih ⊢
    rw [List.range_succ, List.map_append, List.flatten_append, ih]
    simp only [List.map_cons, List.map_nil, List.flatten_cons, List.flatten_nil,
      List.append_nil]
    rw [show (c + 1) * d = c * d + d by ring, List.take_add]

theorem token_slices_flatten (c d : ℕ) (tok : List ℚ) (h : tok.length = c * d) :
    (token_slices c d tok).flatten = tok := by
  rw [token_slices_flatten_take, ← h, List.take_length]

theorem zipWith_st_map (g : ℚ → ℚ) (l : List ℚ) :
    List.zipWith straight_through_value l (l.map g) = l.map g := by
  have hval : ∀ a b : ℚ, straight_through_value a b = b := by
    intro a b
    unfold straight_through_value
    ring
  induction l with
  | nil => rfl
  | cons a l ih => simp [hval, ih]

theorem zipWith2_st_map (g : ℚ → ℚ) (l : List (List ℚ)) :
    List.zipWith (List.zipWith straight_through_value) l (l.map (List.map g))
      = l.map (List.map g) := by
  induction l with
  | nil => rfl
  | cons a l ih => simp [zipWith_st_map, ih]

/-- In both modes the forward value of a token is its elementwise hard
threshold (the straight-through construction is the identity on values). -/
theorem token_out_eq (cfg : LFQCfg) (training : Bool) (tok : List ℚ)
    (h : tok.length = cfg.num_codebooks * cfg.codebook_dim) :
    token_out cfg training tok = tok.map (lfq_threshold cfg.codebook_scale) := by
  simp only [token_out, quantize_slice]
  have hq : quantize_slice cfg.codebook_scale
      = List.map (lfq_threshold cfg.codebook_scale) := funext fun s => rfl
  by_cases ht : training = true
  · rw [if_pos ht, hq, zipWith2_st_map, ← List.map_flatten,
      token_slices_flatten _ _ _ h]
  · rw [if_neg ht, hq, ← List.map_flatten, token_slices_flatten _ _ _ h]

/-- C7: for every input and in both training and inference mode (default
identity straight-through activation, no projection, no soft clamp,
non-spherical), the quantized value returned by forward is elementwise
+codebook_scale where the input element is strictly positive and
-codebook_scale otherwise; in particular an element exactly equal to zero maps
to -codebook_scale, and in training mode the forward value is exactly the
hard-quantized tensor despite the surrogate + (hard - surrogate)
construction. -/
theorem claim_C7_hard_threshold (cfg : LFQCfg) (training : Bool) (t : ℝ)
    (x : List (List ℚ)) (mask : Option (List Bool)) (ranks : List ℕ)
    (hx : ∀ tok ∈ x, tok.length = cfg.num_codebooks * cfg.codebook_dim) :
    (lfq_forward cfg training t x mask ranks).quantized
        = x.map (fun tok => tok.map fun v =>
            if 0 < v then cfg.codebook_scale else -cfg.codebook_scale)
    ∧ lfq_threshold cfg.codebook_scale 0 = -cfg.codebook_scale := by
  constructor
  · show x.map (token_out cfg training) = _
    refine List.map_congr_left ?_
    intro tok htok
    rw [token_out_eq cfg training tok (hx tok htok)]
    rfl
  · simp [lfq_threshold]

theorem claim_C7_hard_threshold_witness :
    (∀ tok ∈ [[(1 : ℚ), -3, 0, 2]],
      tok.length = (LFQCfg.mk 2 2 1 0 0 0 1 false 0 true).num_codebooks
        * (LFQCfg.mk 2 2 1 0 0 0 1 false 0 true).codebook_dim) ∧
    ((lfq_forward (LFQCfg.mk 2 2 1 0 0 0 1 false 0 true) true 1
        [[(1 : ℚ), -3, 0, 2]] none []).quantized
        = [[(1 : ℚ), -3, 0, 2]].map (fun tok => tok.map fun v =>
            if 0 < v then (LFQCfg.mk 2 2 1 0 0 0 1 false 0 true).codebook_scale
            else -(LFQCfg.mk 2 2 1 0 0 0 1 false 0 true).codebook_scale))
      ∧ lfq_threshold (LFQCfg.mk 2 2 1 0 0 0 1 false 0 true).codebook_scale 0
          = -(LFQCfg.mk 2 2 1 0 0 0 1 false 0 true).codebook_scale :=
  ⟨by decide,
    claim_C7_hard_threshold (LFQCfg.mk 2 2 1 0 0 0 1 false 0 true) true 1
      [[(1 : ℚ), -3, 0, 2]] none [] (by decide)⟩

/-- C4: with training mode off, two forward calls on identical input return
identical results — independent of frac_per_sample_entropy and of the
per-call random draw — and the auxiliary loss and every loss-breakdown
component are exactly zero. -/
theorem claim_C4_inference_determinism (cfg : LFQCfg) (f1 f2 : ℚ) (t : ℝ)
    (x : List (List ℚ)) (mask : Option (List Bool)) (r1 r2 : List ℕ) :
    lfq_forward { cfg with frac_per_sample_entropy := f1 } false t x mask r1
      = lfq_forward { cfg with frac_per_sample_entropy := f2 } false t x mask r2
    ∧ (lfq_forward { cfg with frac_per_sample_entropy := f1 } false t x mask r1).aux_loss
        = 0
    ∧ (lfq_forward { cfg with frac_per_sample_entropy := f1 } false t x mask
        r1).entropy_aux_loss = 0
    ∧ (lfq_forward { cfg with frac_per_sample_entropy := f1 } false t x mask
        r1).per_sample_entropy = 0
    ∧ (lfq_forward { cfg with frac_per_sample_entropy := f1 } false t x mask
        r1).codebook_entropy = 0
    ∧ (lfq_forward { cfg with frac_per_sample_entropy := f1 } false t x mask
        r1).commit_loss = 0 := by
  refine ⟨rfl, ?_, rfl, rfl, rfl, rfl⟩
  show (0 : ℝ) * cfg.entropy_loss_weight + 0 * cfg.commitment_loss_weight = 0
  ring

/-- C9: with commitment loss weight zero, the commitment component returned by
forward is exactly zero (for every input, mask and mode), and the aggregate
auxiliary loss reduces to the entropy term alone. -/
theorem claim_C9_commit_short_circuit (cfg : LFQCfg)
    (hw : cfg.commitment_loss_weight = 0) (training : Bool) (t : ℝ)
    (x : List (List ℚ)) (mask : Option (List Bool)) (ranks : List ℕ) :
    (lfq_forward cfg training t x mask ranks).commit_loss = 0
    ∧ (lfq_forward cfg training t x mask ranks).aux_loss
        = (lfq_forward cfg training t x mask ranks).entropy_aux_loss
            * cfg.entropy_loss_weight := by
  have hnot : ¬ (training = true ∧ 0 < cfg.commitment_loss_weight) := by
    rintro ⟨-, hpos⟩
    rw [hw] at hpos
    exact lt_irrefl 0 hpos
  constructor
  · show (if training = true ∧ 0 < cfg.commitment_loss_weight
        then listMean ((maskFilter mask (commit_mse_tokens cfg x)).flatten)
        else 0) = 0
    rw [if_neg hnot]
  · show _ + (if training = true ∧ 0 < cfg.commitment_loss_weight
        then listMean ((maskFilter mask (commit_mse_tokens cfg x)).flatten)
        else 0) * cfg.commitment_loss_weight = _
    rw [if_neg hnot, zero_mul, add_zero]
    rfl

theorem claim_C9_commit_short_circuit_witness :
    (LFQCfg.mk 1 1 1 1 0 1 1 false 0 false).commitment_loss_weight = 0 ∧
    ((lfq_forward (LFQCfg.mk 1 1 1 1 0 1 1 false 0 false) true 1 [[(5 : ℚ)]]
        none [0]).commit_loss = 0
      ∧ (lfq_forward (LFQCfg.mk 1 1 1 1 0 1 1 false 0 false) true 1 [[(5 : ℚ)]]
          none [0]).aux_loss
        = (lfq_forward (LFQCfg.mk 1 1 1 1 0 1 1 false 0 false) true 1 [[(5 : ℚ)]]
            none [0]).entropy_aux_loss
          * (LFQCfg.mk 1 1 1 1 0 1 1 false 0 false).entropy_loss_weight) :=
  ⟨rfl, claim_C9_commit_short_circuit (LFQCfg.mk 1 1 1 1 0 1 1 false 0 false) rfl
    true 1 [[(5 : ℚ)]] none [0]⟩

/-! ### Entropy subsampling (claim C3) and mask exclusion (claim C6) -/

theorem countP_range_lt (n k : ℕ) :
    (List.range n).countP (fun r => decide (r < k)) = min k n := by
  induction n with
  | zero => simp
  | succ n ih =>
    rw [List.range_succ, List.countP_append, ih]
    by_cases h : n < k
    · simp [h] <;> omega
    · simp [h] <;> omega

theorem zip_filter_rank_length {α : Type} (xs : List α) (ranks : List ℕ) (k : ℕ)
    (h : xs.length = ranks.length) :
    (((xs.zip ranks).filter fun p => decide (p.2 < k)).map Prod.fst).length
      = ranks.countP fun r => decide (r < k) := by
  induction xs generalizing ranks with
  | nil =>
    cases ranks with
    | nil => simp
    | cons r rs => simp at h
  | cons a xs ih =>
    cases ranks with
    | nil => simp at h
    | cons r rs =>
      have h2 : xs.length = rs.length := by simpa using h
      simp only [List.zip_cons_cons, List.filter_cons, List.countP_cons]
      by_cases hr : r < k
      · simp [hr, ih rs h2] <;> omega
      · simp [hr, ih rs h2] <;> omega

theorem num_sampled_le (frac : ℚ) (h1 : frac ≤ 1) (n : ℕ) :
    num_sampled_tokens frac n ≤ n := by
  unfold num_sampled_tokens
  have hmul : frac * (n : ℚ) ≤ (n : ℚ) := by
    nlinarith [Nat.cast_nonneg (α := ℚ) n]
  have hfl : ⌊frac * (n : ℚ)⌋ ≤ (n : ℤ) :=
    le_trans (Int.floor_le_floor hmul) (le_of_eq (Int.floor_natCast n))
  exact Int.toNat_le.mpr hfl

/-- C3 counterexample: with frac_per_sample_entropy = 7/10 and 5 tokens, the
code selects int(5 * 0.7) = int(3.5) = 3 tokens (truncation), while the
claim's round(frac * total_tokens) = round(3.5) = 4. -/
theorem claim_C3_counterexample :
    num_sampled_tokens (7 / 10) 5 = 3
      ∧ round ((7 / 10 : ℚ) * (5 : ℕ)) = (4 : ℤ) := by
  constructor
  · unfold num_sampled_tokens
    norm_num
    rfl
  · rw [round_eq]
    norm_num

/-- C3 (amended): when frac_per_sample_entropy < 1 and the per-call ranks are
a permutation of the token positions (the argsort of the fresh random draw of
this call), the token subset used for the per-sample entropy term has size
exactly int(frac * total_tokens) — the floor of frac * total_tokens, not the
round — and both the per-sample entropy term and the batch/codebook-aggregate
entropy term are computed from exactly that same selected subset. -/
theorem claim_C3_amended (frac : ℚ) (_h0 : 0 < frac) (h1 : frac ≤ 1)
    (hlt : frac < 1) (prob : List (List (List ℝ))) (ranks : List ℕ)
    (hperm : ranks.Perm (List.range prob.length)) :
    (per_sample_probs_of frac ranks prob).length
        = num_sampled_tokens frac prob.length
    ∧ (∀ prob2 : List (List (List ℝ)),
        per_sample_probs_of frac ranks prob = per_sample_probs_of frac ranks prob2 →
          per_sample_entropy_term frac ranks prob
              = per_sample_entropy_term frac ranks prob2
            ∧ codebook_entropy_term frac ranks prob
              = codebook_entropy_term frac ranks prob2) := by
  constructor
  · unfold per_sample_probs_of
    rw [if_pos hlt]
    unfold rand_mask_select
    have hlen : prob.length = ranks.length := by
      rw [hperm.length_eq, List.length_range]
    rw [zip_filter_rank_length prob ranks _ hlen, hperm.countP_eq,
      countP_range_lt]
    exact min_eq_left (num_sampled_le frac h1 _)
  · intro prob2 heq
    unfold per_sample_entropy_term codebook_entropy_term
    rw [heq]
    exact ⟨rfl, rfl⟩

theorem claim_C3_amended_witness :
    (0 : ℚ) < 7 / 10 ∧ (7 / 10 : ℚ) ≤ 1 ∧ (7 / 10 : ℚ) < 1
      ∧ ([2, 0, 1, 4, 3] : List ℕ).Perm
          (List.range
            ([[[(0 : ℝ)]], [[0]], [[0]], [[0]], [[0]]] : List (List (List ℝ))).length)
      ∧ ((per_sample_probs_of (7 / 10) [2, 0, 1, 4, 3]
            ([[[(0 : ℝ)]], [[0]], [[0]], [[0]], [[0]]])).length
          = num_sampled_tokens (7 / 10)
              ([[[(0 : ℝ)]], [[0]], [[0]], [[0]], [[0]]] : List (List (List ℝ))).length
        ∧ (∀ prob2 : List (List (List ℝ)),
            per_sample_probs_of (7 / 10) [2, 0, 1, 4, 3]
                ([[[(0 : ℝ)]], [[0]], [[0]], [[0]], [[0]]])
              = per_sample_probs_of (7 / 10) [2, 0, 1, 4, 3] prob2 →
              per_sample_entropy_term (7 / 10) [2, 0, 1, 4, 3]
                  ([[[(0 : ℝ)]], [[0]], [[0]], [[0]], [[0]]])
                = per_sample_entropy_term (7 / 10) [2, 0, 1, 4, 3] prob2
              ∧ codebook_entropy_term (7 / 10) [2, 0, 1, 4, 3]
                  ([[[(0 : ℝ)]], [[0]], [[0]], [[0]], [[0]]])
                = codebook_entropy_term (7 / 10) [2, 0, 1, 4, 3] prob2)) :=
  ⟨by norm_num, by norm_num, by norm_num, by decide,
    claim_C3_amended (7 / 10) (by norm_num) (by norm_num) (by norm_num)
      ([[[(0 : ℝ)]], [[0]], [[0]], [[0]], [[0]]]) [2, 0, 1, 4, 3] (by decide)⟩

theorem maskSelect_map {α β : Type} (f : α → β) (m : List Bool) (xs : List α) :
    maskSelect m (xs.map f) = (maskSelect m xs).map f := by
  induction xs generalizing m with
  | nil => simp [maskSelect]
  | cons a xs ih =>
    cases m with
    | nil => simp [maskSelect]
    | cons b bs =>
      cases b
      · simpa [maskSelect] using ih bs
      · simpa [maskSelect] using ih bs

/-- C6: in training mode, positions marked invalid by the boolean validity
mask have no influence on the per-sample entropy, batch/codebook entropy, or
commitment loss: two inputs that agree on all mask-valid positions (possibly
holding arbitrary garbage at masked-out positions) yield identical loss
values, for the same per-call randomness. -/
theorem claim_C6_mask_excludes (cfg : LFQCfg) (t : ℝ) (m : List Bool)
    (x1 x2 : List (List ℚ)) (ranks : List ℕ)
    (hagree : maskSelect m x1 = maskSelect m x2) :
    (lfq_forward cfg true t x1 (some m) ranks).per_sample_entropy
        = (lfq_forward cfg true t x2 (some m) ranks).per_sample_entropy
    ∧ (lfq_forward cfg true t x1 (some m) ranks).codebook_entropy
        = (lfq_forward cfg true t x2 (some m) ranks).codebook_entropy
    ∧ (lfq_forward cfg true t x1 (some m) ranks).commit_loss
        = (lfq_forward cfg true t x2 (some m) ranks).commit_loss := by
  have hprob : maskFilter (some m) (lfq_probs_all cfg t x1)
      = maskFilter (some m) (lfq_probs_all cfg t x2) := by
    show maskSelect m (lfq_probs_all cfg t x1)
        = maskSelect m (lfq_probs_all cfg t x2)
    unfold lfq_probs_all
    rw [maskSelect_map, maskSelect_map, hagree]
  have hcommit : maskFilter (some m) (commit_mse_tokens cfg x1)
      = maskFilter (some m) (commit_mse_tokens cfg x2) := by
    show maskSelect m (commit_mse_tokens cfg x1)
        = maskSelect m (commit_mse_tokens cfg x2)
    unfold commit_mse_tokens
    rw [maskSelect_map, maskSelect_map, hagree]
  refine ⟨?_, ?_, ?_⟩
  · simp only [lfq_forward]
    rw [hprob]
  · simp only [lfq_forward]
    rw [hprob]
  · simp only [lfq_forward]
    rw [hcommit]

theorem claim_C6_mask_excludes_witness :
    maskSelect [true, false] [[(1 : ℚ), 2], [3, 4]]
        = maskSelect [true, false] [[(1 : ℚ), 2], [99, -5]]
      ∧ ((lfq_forward (LFQCfg.mk 2 1 1 1 1 1 1 false 0 false) true 1
            [[(1 : ℚ), 2], [3, 4]] (some [true, false]) [0]).per_sample_entropy
          = (lfq_forward (LFQCfg.mk 2 1 1 1 1 1 1 false 0 false) true 1
            [[(1 : ℚ), 2], [99, -5]] (some [true, false]) [0]).per_sample_entropy
        ∧ (lfq_forward (LFQCfg.mk 2 1 1 1 1 1 1 false 0 false) true 1
            [[(1 : ℚ), 2], [3, 4]] (some [true, false]) [0]).codebook_entropy
          = (lfq_forward (LFQCfg.mk 2 1 1 1 1 1 1 false 0 false) true 1
            [[(1 : ℚ), 2], [99, -5]] (some [true, false]) [0]).codebook_entropy
        ∧ (lfq_forward (LFQCfg.mk 2 1 1 1 1 1 1 false 0 false) true 1
            [[(1 : ℚ), 2], [3, 4]] (some [true, false]) [0]).commit_loss
          = (lfq_forward (LFQCfg.mk 2 1 1 1 1 1 1 false 0 false) true 1
            [[(1 : ℚ), 2], [99, -5]] (some [true, false]) [0]).commit_loss) :=
  ⟨by decide,
    claim_C6_mask_excludes (LFQCfg.mk 2 1 1 1 1 1 1 false 0 false) 1
      [true, false] [[(1 : ℚ), 2], [3, 4]] [[(1 : ℚ), 2], [99, -5]] [0]
      (by decide)⟩

/-! ### Shape invariants and index range (claim C8) -/

theorem zip_encode_le (xs : List ℚ) (ms : List ℕ) :
    (((xs.zip ms).map fun p => (if 0 < p.1 then 1 else 0) * p.2).sum) ≤ ms.sum := by
  induction xs generalizing ms with
  | nil => simp
  | cons a xs ih =>
    cases ms with
    | nil => simp
    | cons mm ms2 =>
      simp only [List.zip_cons_cons, List.map_cons, List.sum_cons]
      have h1 : (if 0 < a then 1 else 0) * mm ≤ mm := by
        by_cases h : 0 < a <;> simp [h]
      exact Nat.add_le_add h1 (ih ms2)

theorem lfq_mask_sum (d : ℕ) : (lfq_mask d).sum = 2 ^ d - 1 := by
  induction d with
  | zero => simp [lfq_mask]
  | succ d ih =>
    rw [lfq_mask_succ, List.sum_cons, ih]
    have h1 : (1 : ℕ) ≤ 2 ^ d := Nat.one_le_two_pow
    have h2 : (2 : ℕ) ^ (d + 1) = 2 ^ d * 2 := by ring
    omega

/-- Every index derived by the sign-threshold encode lies in [0, 2^codebook_dim). -/
theorem lfq_encode_lt (d : ℕ) (codes : List ℚ) : lfq_encode d codes < 2 ^ d := by
  unfold lfq_encode
  have h1 := zip_encode_le codes (lfq_mask d)
  rw [lfq_mask_sum] at h1
  have h2 : (1 : ℕ) ≤ 2 ^ d := Nat.one_le_two_pow
  omega

theorem token_indices_length (cfg : LFQCfg) (tok : List ℚ) :
    (token_indices cfg tok).length = cfg.num_codebooks := by
  simp [token_indices, token_slices]

theorem token_indices_lt (cfg : LFQCfg) (tok : List ℚ) :
    ∀ v ∈ token_indices cfg tok, v < 2 ^ cfg.codebook_dim := by
  intro v hv
  simp only [token_indices, List.mem_map] at hv
  obtain ⟨s, _, rfl⟩ := hv
  exact lfq_encode_lt _ _

theorem getD_getD_indices_lt (cfg : LFQCfg) (idxs : List (List ℕ)) (n : ℕ)
    (hmem : ∀ l ∈ idxs, ∀ v ∈ l, v < 2 ^ cfg.codebook_dim) :
    (idxs.getD n []).getD 0 0 < 2 ^ cfg.codebook_dim := by
  have hpow : (0 : ℕ) < 2 ^ cfg.codebook_dim := Nat.pow_pos (by norm_num)
  by_cases hn : n < idxs.length
  · rw [List.getD_eq_getElem _ _ hn]
    by_cases h0 : 0 < (idxs[n]).length
    · rw [List.getD_eq_getElem _ _ h0]
      exact hmem _ (List.getElem_mem hn) _ (List.getElem_mem h0)
    · rw [List.getD_eq_default _ _ (by omega)]
      exact hpow
  · rw [List.getD_eq_default idxs _ (show idxs.length ≤ n by omega)]
    simpa using hpow

theorem token_out_length (cfg : LFQCfg) (training : Bool) (tok : List ℚ)
    (h : tok.length = cfg.num_codebooks * cfg.codebook_dim) :
    (token_out cfg training tok).length = tok.length := by
  rw [token_out_eq cfg training tok h, List.length_map]

theorem image_unpack_quant_dims (Dch H W : ℕ) (toks : List (List ℚ)) :
    dims3 (image_unpack_quant Dch H W toks) Dch H W := by
  refine ⟨by simp [image_unpack_quant], ?_⟩
  intro r hr
  simp only [image_unpack_quant, List.mem_map, List.mem_range] at hr
  obtain ⟨f, _, rfl⟩ := hr
  refine ⟨by simp, ?_⟩
  intro row hrow
  simp only [List.mem_map, List.mem_range] at hrow
  obtain ⟨h, _, rfl⟩ := hrow
  simp

theorem drop_image_indices_dims (H W : ℕ) (idxs : List (List ℕ)) :
    dims2 ((image_unpack_indices H W idxs).map (List.map fun l => l.getD 0 0))
      H W := by
  refine ⟨by simp [image_unpack_indices], ?_⟩
  intro r hr
  simp only [image_unpack_indices, List.map_map, List.mem_map,
    List.mem_range] at hr
  obtain ⟨h, _, rfl⟩ := hr
  simp

/-- C8: for sequence input of shape (B, N, D) with D = num_codebooks *
codebook_dim, forward returns quantized of shape (B, N, D) and indices of
shape (B, N, num_codebooks), which after squeezing the codebook axis (the
num_codebooks = 1, axis-dropped case) is (B, N); every returned index lies in
[0, codebook_size). For channel-first image input of shape (B, D, H, W),
forward returns quantized of shape (B, D, H, W) and (squeezed) indices of
shape (B, H, W), again with every index in [0, codebook_size). -/
theorem claim_C8_shapes (cfg : LFQCfg) (training : Bool)
    (B N B2 Dch H W : ℕ) (xseq : List (List (List ℚ)))
    (ximg : List (List (List (List ℚ))))
    (hseq : dims3 xseq B N (cfg.num_codebooks * cfg.codebook_dim))
    (himg : ximg.length = B2) :
    dims3 (lfq_seq_quantized cfg training xseq) B N
        (cfg.num_codebooks * cfg.codebook_dim)
    ∧ dims3 (lfq_seq_indices cfg xseq) B N cfg.num_codebooks
    ∧ dims2 (drop_cb_dim_seq (lfq_seq_indices cfg xseq)) B N
    ∧ (∀ b ∈ lfq_seq_indices cfg xseq, ∀ tk ∈ b, ∀ v ∈ tk,
        v < 2 ^ cfg.codebook_dim)
    ∧ dims4 (lfq_image_quantized cfg training Dch H W ximg) B2 Dch H W
    ∧ dims3 (drop_cb_dim_img (lfq_image_indices cfg Dch H W ximg)) B2 H W
    ∧ (∀ b ∈ drop_cb_dim_img (lfq_image_indices cfg Dch H W ximg),
        ∀ row ∈ b, ∀ v ∈ row, v < 2 ^ cfg.codebook_dim) := by
  obtain ⟨hB, hrows⟩ := hseq
  refine ⟨⟨?_, ?_⟩, ⟨?_, ?_⟩, ⟨?_, ?_⟩, ?_, ⟨?_, ?_⟩, ⟨?_, ?_⟩, ?_⟩
  · simpa [lfq_seq_quantized] using hB
  · intro r hr
    simp only [lfq_seq_quantized, List.mem_map] at hr
    obtain ⟨batch, hbatch, rfl⟩ := hr
    refine ⟨by simpa using (hrows batch hbatch).1, ?_⟩
    intro q hq
    simp only [List.mem_map] at hq
    obtain ⟨tok, htok, rfl⟩ := hq
    rw [token_out_length cfg training tok ((hrows batch hbatch).2 tok htok)]
    exact (hrows batch hbatch).2 tok htok
  · simpa [lfq_seq_indices] using hB
  · intro r hr
    simp only [lfq_seq_indices, List.mem_map] at hr
    obtain ⟨batch, hbatch, rfl⟩ := hr
    refine ⟨by simpa using (hrows batch hbatch).1, ?_⟩
    intro tk htk
    simp only [List.mem_map] at htk
    obtain ⟨tok, _, rfl⟩ := htk
    exact token_indices_length cfg tok
  · simpa [drop_cb_dim_seq, lfq_seq_indices] using hB
  · intro r hr
    simp only [drop_cb_dim_seq, lfq_seq_indices, List.map_map,
      List.mem_map] at hr
    obtain ⟨batch, hbatch, rfl⟩ := hr
    simpa using (hrows batch hbatch).1
  · intro b hb tk htk v hv
    simp only [lfq_seq_indices, List.mem_map] at hb
    obtain ⟨batch, _, rfl⟩ := hb
    simp only [List.mem_map] at htk
    obtain ⟨tok, _, rfl⟩ := htk
    exact token_indices_lt cfg tok v hv
  · simpa [lfq_image_quantized] using himg
  · intro r hr
    simp only [lfq_image_quantized, List.mem_map] at hr
    obtain ⟨xb, _, rfl⟩ := hr
    exact image_unpack_quant_dims Dch H W _
  · simpa [drop_cb_dim_img, lfq_image_indices] using himg
  · intro r hr
    simp only [drop_cb_dim_img, lfq_image_indices, List.map_map,
      List.mem_map] at hr
    obtain ⟨xb, _, rfl⟩ := hr
    exact drop_image_indices_dims H W _
  · intro b hb row hrow v hv
    simp only [drop_cb_dim_img, lfq_image_indices, List.map_map,
      List.mem_map] at hb
    obtain ⟨xb, _, rfl⟩ := hb
    simp only [image_unpack_indices, List.map_map, List.mem_map,
      List.mem_range, Function.comp_apply] at hrow
    obtain ⟨h, _, rfl⟩ := hrow
    simp only [List.map_map, List.mem_map, List.mem_range,
      Function.comp_apply] at hv
    obtain ⟨w, _, rfl⟩ := hv
    refine getD_getD_indices_lt cfg _ _ ?_
    intro l hl
    simp only [List.mem_map] at hl
    obtain ⟨tok, _, rfl⟩ := hl
    exact token_indices_lt cfg tok

theorem claim_C8_shapes_witness :
    dims3 [[[(1 : ℚ)]]] 1 1
        ((LFQCfg.mk 1 1 1 0 0 0 1 false 0 false).num_codebooks
          * (LFQCfg.mk 1 1 1 0 0 0 1 false 0 false).codebook_dim)
      ∧ ([[[[(1 : ℚ)]]]] : List (List (List (List ℚ)))).length = 1
      ∧ dims3 (lfq_seq_quantized (LFQCfg.mk 1 1 1 0 0 0 1 false 0 false) true
          [[[(1 : ℚ)]]]) 1 1 1 :=
  ⟨by unfold dims3 dims2; decide, by decide,
    (claim_C8_shapes (LFQCfg.mk 1 1 1 0 0 0 1 false 0 false) true 1 1 1 1 1 1
      [[[(1 : ℚ)]]] [[[[(1 : ℚ)]]]] (by unfold dims3 dims2; decide)
      (by decide)).1⟩
